import Mathlib

set_option maxRecDepth 4000

/-!
Verification of `articles_to_xlsx.py`: a pipeline that fetches trending
topics, searches related articles page by page, classifies each article,
and assembles a multi-sheet spreadsheet report.

The Python source is embedded shallowly: pure helpers become Lean
functions on `String` / `List Char`, the paginated network loop becomes a
recursion over a finite trace of responses, and the loosely-typed JSON
article records become a structure whose optional fields default safely.
-/

namespace ArticlesToXlsx

/-! ### `strip_tags` (source lines 10-15)

`RE_STRIP = re.compile(r'</?[^>]+>', re.IGNORECASE)` and

```
def strip_tags(html_content):
    if not html_content:
        return ''
    return re.sub(RE_STRIP, ' ', html_content).replace('\n', ' ')
             .replace('\r', ' ').replace('  ', ' ').strip()
```

The regex is embedded directly: at a position holding `<`, the rest of
the pattern `/?[^>]+>` is matched greedily with backtracking, exactly as
the `re` engine resolves it.  `re.sub` scans left to right, replaces each
non-overlapping match by a single space and resumes after the match.
-/

/-- Scan to the first `>` and return the remainder after it; this is the
greedy `[^>]+>` tail once at least one non-`>` character was consumed. -/
def scanGt : List Char → Option (List Char)
  | [] => none
  | c :: rest => if c = '>' then some rest else scanGt rest

/-- Match `[^>]+>` against `l`: at least one non-`>` character, then
everything up to and including the first `>`. -/
def matchBody : List Char → Option (List Char)
  | [] => none
  | c :: rest => if c = '>' then none else scanGt rest

/-- Match `/?[^>]+>` against `l` (the part of `RE_STRIP` after the `<`):
the greedy optional `/` is tried first and backtracked on failure. -/
def matchAfterLt (l : List Char) : Option (List Char) :=
  match l with
  | [] => none
  | c :: rest =>
    if c = '/' then (matchBody rest).orElse (fun _ => matchBody (c :: rest))
    else matchBody (c :: rest)

/-- `re.sub(RE_STRIP, ' ', s)`: scan left to right; at each position, if the
regex matches, emit a single space and resume after the match, otherwise
keep the character and move one position on. -/
def subTags : List Char → List Char
  | [] => []
  | c :: rest =>
    if c = '<' then
      match h : matchAfterLt rest with
      | some rest' => ' ' :: subTags rest'
      | none => c :: subTags rest
    else c :: subTags rest
termination_by l => l.length
decreasing_by
  · have hscan : ∀ (l l' : List Char), scanGt l = some l' → l'.length < l.length := by
      intro l
      induction l with
      | nil => intro l' hs; simp [scanGt] at hs
      | cons a as ih =>
        intro l' hs
        simp only [scanGt] at hs
        split at hs
        · cases hs; simp
        · exact Nat.lt_trans (ih _ hs) (Nat.lt_succ_self _)
    have hbody : ∀ (l l' : List Char), matchBody l = some l' → l'.length < l.length := by
      intro l l' hb
      cases l with
      | nil => simp [matchBody] at hb
      | cons a as =>
        simp only [matchBody] at hb
        split at hb
        · cases hb
        · exact Nat.lt_trans (hscan _ _ hb) (Nat.lt_succ_self _)
    have hlt : ∀ (l l' : List Char), matchAfterLt l = some l' → l'.length < l.length := by
      intro l l' hm
      cases l with
      | nil => simp [matchAfterLt] at hm
      | cons a as =>
        simp only [matchAfterLt] at hm
        split at hm
        · rcases ho : matchBody as with _ | v
          · rw [ho] at hm
            simp only [Option.orElse] at hm
            exact hbody _ _ hm
          · rw [ho] at hm
            simp only [Option.orElse] at hm
            cases hm
            exact Nat.lt_trans (hbody _ _ ho) (Nat.lt_succ_self _)
        · exact hbody _ _ hm
    exact Nat.lt_trans (hlt _ _ h) (Nat.lt_succ_self _)
  · simp
  · simp

/-- A character list is "safe" after `<` when the very next character is `>`
(so the regex cannot match there) or no `>` occurs later at all. -/
def okLt (rest : List Char) : Bool :=
  rest.head? == some '>' || !(rest.contains '>')

/-- Structural invariant of the stripped text: every `<` is immediately
followed by `>` or has no `>` anywhere after it. -/
def strongInv : List Char → Bool
  | [] => true
  | c :: rest => (c != '<' || okLt rest) && strongInv rest

/-- `hasTag l` holds when some position of `l` starts a match of
`RE_STRIP` (`</?[^>]+>`), i.e. `l` contains a tag-shaped substring:
`<`, at least one character none of which is `>`, then `>`. -/
def hasTag : List Char → Bool
  | [] => false
  | c :: rest => (c == '<' && (matchAfterLt rest).isSome) || hasTag rest

/-- `.replace('\n', ' ')` — single-character replacement is a character map. -/
def replNL (c : Char) : Char := if c = '\n' then ' ' else c

/-- `.replace('\r', ' ')`. -/
def replCR (c : Char) : Char := if c = '\r' then ' ' else c

/-- `.replace('  ', ' ')`: one left-to-right pass replacing non-overlapping
double spaces by single spaces (runs of 3+ spaces are only partly folded,
exactly as in Python's `str.replace`). -/
def collapseDouble : List Char → List Char
  | [] => []
  | [c] => [c]
  | c :: d :: rest =>
    if c = ' ' ∧ d = ' ' then ' ' :: collapseDouble rest
    else c :: collapseDouble (d :: rest)

/-- Characters that Python's `str.strip()` removes (`str.isspace` set,
restricted to the code points that can appear here). -/
def isPySpace (c : Char) : Bool :=
  c = ' ' || c = '\t' || c = '\n' || c = '\r' || c = '\x0b' || c = '\x0c' ||
  c = '\x1c' || c = '\x1d' || c = '\x1e' || c = '\x1f' || c = '\x85' || c = '\xa0'

/-- Python `str.strip()` on a character list: drop leading and trailing
whitespace. -/
def pyStripList (l : List Char) : List Char :=
  ((l.dropWhile isPySpace).reverse.dropWhile isPySpace).reverse

/-- `strip_tags` body on a character list (source lines 12-15). -/
def stripTagsList (html_content : List Char) : List Char :=
  if html_content = [] then []
  else
    pyStripList (collapseDouble (((subTags html_content).map replNL).map replCR))

/-- `strip_tags` (source lines 12-15); `if not html_content: return ''`
covers the empty string. -/
def strip_tags (html_content : String) : String :=
  ⟨stripTagsList html_content.data⟩

/-! ### Data model

Raw articles are loosely-typed JSON records; every field access in the
source is a `get` with a default, so each field is optional here. -/

/-- An entry of the `alternate` list: `{href}`. -/
structure Alternate where
  href : Option String
deriving DecidableEq

/-- An entry of `businessEvents` / `commonTopics`: `{id}`. -/
structure TagRef where
  id : Option String
deriving DecidableEq

/-- A `{content: ...}` wrapper, as in `article['content']['content']`. -/
structure ContentObj where
  content : Option String
deriving DecidableEq

/-- The dynamically-typed `crawled` value: an integer, a string, or a
JSON null.  Floats do not occur in the claims under verification. -/
inductive PyVal where
  | vInt (n : Int)
  | vStr (s : String)
  | vNone
deriving DecidableEq

/-- A raw Article record; absent fields are `none` / `[]`. -/
structure Article where
  id : Option String
  title : Option String
  crawled : Option PyVal
  canonicalUrl : Option String
  alternate : List Alternate
  fullContent : Option String
  content : Option ContentObj
  summary : Option ContentObj
  businessEvents : List TagRef
  commonTopics : List TagRef
deriving DecidableEq

/-- A trend record `{label, aliases}` from the discovery call. -/
structure Trend where
  label : Option String
  aliases : List String
deriving DecidableEq

/-- A ClassifiedArticle row of a trend's detail table (source lines 199-206). -/
structure Row where
  id : String
  title : String
  crawled : String
  url : String
  content : String
  type : String
deriving DecidableEq

/-- A summary row (source lines 189-195). -/
structure SummaryRow where
  aliases : String
  totalArticles : Nat
  regulatory : Nat
  expertMentions : Nat
  conferences : Nat
deriving DecidableEq

/-- Python truthiness of an optional string: present and non-empty. -/
def truthyS (o : Option String) : Bool := o.getD "" != ""

/-! ### `get_human_date` (source lines 17-21)

```
def get_human_date(unix_ms):
    try:
        return datetime.utcfromtimestamp(int(unix_ms) / 1000).strftime('%Y-%m-%d %H:%M:%S')
    except Exception:
        return ''
```

`int(unix_ms) / 1000` is float division; `strftime` displays whole
seconds, so the displayed time is `floor(ms / 1000)` seconds since the
epoch (exact for every value inside `datetime`'s supported range, where
the float quotient cannot cross an integer boundary).  Out-of-range
values make `utcfromtimestamp` raise, which the `except` turns into `''`. -/

/-- Digit run of a Python `int()` literal: `digit (('_')? digit)*`. -/
def pyDigitsAux : List Char → Nat → Option Nat
  | [], acc => some acc
  | '_' :: c :: rest, acc =>
    if c.isDigit then pyDigitsAux rest (10 * acc + (c.toNat - 48)) else none
  | c :: rest, acc =>
    if c.isDigit then pyDigitsAux rest (10 * acc + (c.toNat - 48)) else none

/-- Parse a nonempty digit run (underscores allowed between digits). -/
def pyDigits : List Char → Option Nat
  | [] => none
  | c :: rest => if c.isDigit then pyDigitsAux rest (c.toNat - 48) else none

/-- Python `int(s)` on a string: surrounding whitespace ignored, optional
sign, decimal digits; anything else raises (here: `none`). -/
def pyParseInt (s : String) : Option Int :=
  match pyStripList s.data with
  | '+' :: ds => (pyDigits ds).map (fun n => (n : Int))
  | '-' :: ds => (pyDigits ds).map (fun n => -(n : Int))
  | ds => (pyDigits ds).map (fun n => (n : Int))

/-- Civil date from days since 1970-01-01 (proleptic Gregorian). -/
def civilFromDays (z0 : Int) : Int × Nat × Nat :=
  let z := z0 + 719468
  let era := Int.fdiv z 146097
  let doe := (z - era * 146097).toNat
  let yoe := (doe - doe / 1460 + doe / 36524 - doe / 146096) / 365
  let doy := doe - (365 * yoe + yoe / 4 - yoe / 100)
  let mp := (5 * doy + 2) / 153
  let d := doy - (153 * mp + 2) / 5 + 1
  let m := if mp < 10 then mp + 3 else mp - 9
  let y := (era * 400 + yoe) + (if m ≤ 2 then 1 else 0)
  (y, m, d)

/-- Left-pad a natural below 10 to two digits. -/
def pad2 (n : Nat) : String := if n < 10 then "0" ++ toString n else toString n

/-- `datetime.utcfromtimestamp(secs).strftime('%Y-%m-%d %H:%M:%S')`:
`none` when the timestamp is outside `datetime`'s year range 1..9999
(where Python raises).  glibc's `%Y` prints the year unpadded. -/
def fmtUtc (secs : Int) : Option String :=
  let days := Int.fdiv secs 86400
  let sod := (secs - days * 86400).toNat
  match civilFromDays days with
  | (y, m, d) =>
    if 1 ≤ y ∧ y ≤ 9999 then
      some (toString y.toNat ++ "-" ++ pad2 m ++ "-" ++ pad2 d ++ " " ++
        pad2 (sod / 3600) ++ ":" ++ pad2 (sod % 3600 / 60) ++ ":" ++ pad2 (sod % 60))
    else none

/-- `get_human_date` (source lines 17-21): every conversion failure is
caught and becomes the empty string. -/
def get_human_date : PyVal → String
  | .vInt n => (fmtUtc (Int.fdiv n 1000)).getD ""
  | .vStr s =>
    match pyParseInt s with
    | some n => (fmtUtc (Int.fdiv n 1000)).getD ""
    | none => ""
  | .vNone => ""

/-! ### `extract_url` (source lines 23-29) -/

/-- `extract_url`: prefer a truthy `canonicalUrl`; else the first
`alternate` entry's `href` (default `''`); else `''`. -/
def extract_url (article : Article) : String :=
  if truthyS article.canonicalUrl then article.canonicalUrl.getD ""
  else
    match article.alternate with
    | alt :: _ => alt.href.getD ""
    | [] => ""

/-! ### `extract_content` (source lines 31-38) -/

/-- Truthiness of `article['content'].get('content')` style access. -/
def truthyInner (o : Option ContentObj) : Bool :=
  match o with
  | some obj => truthyS obj.content
  | none => false

/-- `extract_content`: first truthy candidate among `fullContent`,
`content.content`, `summary.content` is tag-stripped; else `''`. -/
def extract_content (article : Article) : String :=
  if truthyS article.fullContent then strip_tags (article.fullContent.getD "")
  else if truthyInner article.content then
    strip_tags ((article.content.map ContentObj.content).getD none |>.getD "")
  else if truthyInner article.summary then
    strip_tags ((article.summary.map ContentObj.content).getD none |>.getD "")
  else ""

/-! ### `extract_type` (source lines 40-52) -/

/-- `x in ids` for an optional id: `None` is never in a list of strings. -/
def idIn (o : Option String) (ids : List String) : Bool :=
  match o with
  | some s => ids.contains s
  | none => false

/-- The `types` list built by the two loops of `extract_type`, in append
order: per business event `Regulatory` then `Conferences`, then per
common topic `Expert Mentions`. -/
def typesOf (article : Article) (regulatory_ids : List String)
    (expert_id conference_id : String) : List String :=
  (article.businessEvents.flatMap fun be =>
    (if idIn be.id regulatory_ids then ["Regulatory"] else []) ++
    (if be.id == some conference_id then ["Conferences"] else [])) ++
  (article.commonTopics.flatMap fun topic =>
    if topic.id == some expert_id then ["Expert Mentions"] else [])

/-- `', '.join(set(types)) if types else ''`.  Python's `set` iteration
order is unspecified; it is modelled by `List.dedup` (every claim proved
about the join is insensitive to the order chosen). -/
def extract_type (article : Article) (regulatory_ids : List String)
    (expert_id conference_id : String) : String :=
  let types := typesOf article regulatory_ids expert_id conference_id
  if types.isEmpty then "" else String.intercalate ", " types.dedup

/-! ### `sanitize_sheet_name` (source lines 54-57) -/

/-- The characters removed by `re.sub(r'[\[\]:*?/\\]', '', name)`. -/
def illegalSheetChar (c : Char) : Bool :=
  c = '[' || c = ']' || c = ':' || c = '*' || c = '?' || c = '/' || c = '\\'

/-- `sanitize_sheet_name`: remove illegal characters, keep the first 31. -/
def sanitize_sheet_name (name : String) : String :=
  ⟨(name.data.filter (fun c => !illegalSheetChar c)).take 31⟩

/-! ### Substring search, for `str.find(sub) != -1` (source lines 192-194). -/

/-- Number of positions of `l` at which `pat` occurs. -/
def countSub : List Char → List Char → Nat
  | [], pat => if pat.isPrefixOf ([] : List Char) then 1 else 0
  | c :: t, pat => (if pat.isPrefixOf (c :: t) then 1 else 0) + countSub t pat

/-- `s.find(pat) != -1`: `pat` occurs somewhere in `s`. -/
def containsSub : List Char → List Char → Bool
  | [], pat => pat.isPrefixOf ([] : List Char)
  | c :: t, pat => pat.isPrefixOf (c :: t) || containsSub t pat

/-! ### `search_articles` (source lines 91-150)

The network is modelled by a finite trace of responses, consumed one per
loop iteration: `some page` is a successful `200` response carrying
`items` and an optional `continuation` token, `none` is a request that
raised (caught by the `except`, which logs and breaks).  The loop also
records, per request, the `continuation` query parameter it attached
(`none` on the first request, since `req_params` only gains the key when
the token is truthy). -/

/-- One page of the search response: `items` plus optional token. -/
structure Page (α : Type) where
  items : List α
  continuation : Option String
deriving DecidableEq

/-- Python truthiness of an optional token (`if continuation:` and
`if not continuation`): absent and `''` are falsy. -/
def truthyTok (o : Option String) : Bool := o.getD "" != ""

/-- The `while True` pagination loop (source lines 131-149), with the
accumulator `all_items` and the current `continuation` as loop state.
Returns the trace of attached continuation parameters and `all_items`.
An exhausted response trace simply ends the run (the model only feeds
the loop finitely many responses). -/
def searchLoop {α : Type} :
    List (Option (Page α)) → List α → Option String →
      List (Option String) × List α
  | [], all_items, _ => ([], all_items)
  | resp :: rest, all_items, continuation =>
    let req : Option String := if truthyTok continuation then continuation else none
    match resp with
    | none => ([req], all_items)
    | some data =>
      let items := all_items ++ data.items
      let last_continuation := continuation
      let cont := data.continuation
      if !truthyTok cont || cont == last_continuation then ([req], items)
      else
        let r := searchLoop rest items cont
        (req :: r.1, r.2)

/-- `search_articles` (source lines 91-150): run the pagination loop from
an empty accumulator and no continuation. -/
def search_articles {α : Type} (responses : List (Option (Page α))) :
    List (Option String) × List α :=
  searchLoop responses [] none

/-- The Article Search Client exactly as the spec words it (§4.3): issue
a request (attaching the previous page's token when there is one); on
failure stop with what was accumulated; otherwise take the page's items
and repeat with its token, until a response omits a token (absent or
empty) or returns the same token as the previous page.  The result is
the concatenation of the page items in page-arrival order. -/
def searchSpec {α : Type} :
    List (Option (Page α)) → Option String →
      List (Option String) × List α
  | [], _ => ([], [])
  | resp :: rest, prev =>
    let req : Option String := if truthyTok prev then prev else none
    match resp with
    | none => ([req], [])
    | some page =>
      if !truthyTok page.continuation || page.continuation == prev then
        ([req], page.items)
      else
        let r := searchSpec rest page.continuation
        (req :: r.1, page.items ++ r.2)

/-- A chain of pages each carrying a fresh nonempty token (so the loop
never stops inside it): the first token differs from `prev`, and each
later token differs from its predecessor. -/
def chainOk {α : Type} : Option String → List (Page α) → Bool
  | _, [] => true
  | prev, p :: ps =>
    match p.continuation with
    | none => false
    | some t => (t != "") && (some t != prev) && chainOk (some t) ps

/-- The token carried by the last page of `ps` (or `prev` if none). -/
def lastContFrom {α : Type} : Option String → List (Page α) → Option String
  | prev, [] => prev
  | _, p :: ps => lastContFrom p.continuation ps

/-! ### `main` (source lines 152-221), the Report Builder

The two network effects are abstracted: `trends` is the list obtained
from the discovery call, and `search` maps a resolved alias list to the
article list the paginated search returns for it.  The per-trend loop is
`processTrends`; `main` runs it on the first `num_trends` trends. -/

/-- The fixed classification identifiers (source lines 164-169). -/
def regulatory_ids : List String :=
  ["nlp/f/businessEvent/regulatory-changes",
   "nlp/f/businessEvent/regulatory-approvals"]

def expert_id : String := "nlp/f/topic/6001"

def conference_id : String := "nlp/f/businessEvent/participation-in-an-event"

/-- Python `str.strip()` on a string. -/
def pyStripStr (s : String) : String := ⟨pyStripList s.data⟩

/-- Alias resolution (source lines 171-180): the trend's aliases, else a
singleton of the stripped label, else empty (which makes the loop skip
the trend). -/
def resolveAliases (trend : Trend) : List String :=
  if trend.aliases ≠ [] then trend.aliases
  else
    let label := pyStripStr (trend.label.getD "")
    if label ≠ "" then [label] else []

/-- One detail-table row (source lines 199-206). -/
def classifyRow (article : Article) : Row :=
  { id := article.id.getD ""
    title := article.title.getD ""
    crawled := get_human_date (article.crawled.getD (PyVal.vStr ""))
    url := extract_url article
    content := extract_content article
    type := extract_type article regulatory_ids expert_id conference_id }

/-- The summary row of one trend (source lines 189-195). -/
def mkSummary (aliases_str : String) (articles : List Article) : SummaryRow :=
  { aliases := aliases_str
    totalArticles := articles.length
    regulatory := articles.countP fun a =>
      containsSub (extract_type a regulatory_ids expert_id conference_id).data
        "Regulatory".data
    expertMentions := articles.countP fun a =>
      containsSub (extract_type a regulatory_ids expert_id conference_id).data
        "Expert Mentions".data
    conferences := articles.countP fun a =>
      containsSub (extract_type a regulatory_ids expert_id conference_id).data
        "Conferences".data }

/-- The per-trend loop (source lines 170-210): skip a trend with no
usable alias, skip a trend whose search returned nothing, otherwise
append its summary row and its `(sheetName, rows)` detail table. -/
def processTrends (search : List String → List Article) :
    List Trend → List SummaryRow × List (String × List Row)
  | [] => ([], [])
  | trend :: ts =>
    match resolveAliases trend with
    | [] => processTrends search ts
    | a0 :: rest =>
      let aliases := a0 :: rest
      let articles := search aliases
      if articles.isEmpty then processTrends search ts
      else
        let r := processTrends search ts
        (mkSummary (String.intercalate ", " aliases) articles :: r.1,
         (sanitize_sheet_name a0, articles.map classifyRow) :: r.2)

/-- `main`'s pure core: process the first `num_trends` trends. -/
def mainCore (search : List String → List Article) (num_trends : Nat)
    (trends : List Trend) : List SummaryRow × List (String × List Row) :=
  processTrends search (trends.take num_trends)

/-- A trend contributes to the report iff it resolves to a nonempty
alias list and its search returns at least one article. -/
def keepTrend (search : List String → List Article) (trend : Trend) : Bool :=
  !(resolveAliases trend).isEmpty && !(search (resolveAliases trend)).isEmpty

/-! ### Sample records, used to instantiate hypothesis-bearing theorems -/

/-- An article with a non-empty canonical URL and a competing alternate. -/
def exArtCanon : Article :=
  { id := some "a1", title := some "T1", crawled := some (.vInt 0)
    canonicalUrl := some "https://canon.example"
    alternate := [{ href := some "https://alt.example" }]
    fullContent := none, content := none, summary := none
    businessEvents := [], commonTopics := [] }

/-- An article with no canonical URL and two alternates. -/
def exArtAlt : Article :=
  { id := some "a2", title := none, crawled := none
    canonicalUrl := none
    alternate := [{ href := some "https://alt.example" },
                  { href := some "https://later.example" }]
    fullContent := none, content := none, summary := none
    businessEvents := [], commonTopics := [] }

/-- An article with nothing usable at all. -/
def exArtBare : Article :=
  { id := none, title := none, crawled := none
    canonicalUrl := none, alternate := []
    fullContent := none, content := none, summary := none
    businessEvents := [], commonTopics := [] }

/-- Empty canonical URL; the first alternate has no `href`, a later one does. -/
def exArtNoHref : Article :=
  { id := none, title := none, crawled := none
    canonicalUrl := some ""
    alternate := [{ href := none }, { href := some "https://later.example" }]
    fullContent := none, content := none, summary := none
    businessEvents := [], commonTopics := [] }

/-- An article whose tags match no classification identifier. -/
def exArtNoMatch : Article :=
  { id := none, title := none, crawled := none
    canonicalUrl := none, alternate := []
    fullContent := none, content := none, summary := none
    businessEvents := [{ id := some "nlp/f/businessEvent/other" }]
    commonTopics := [{ id := none }] }

/-- The article of the spec's classification test: one regulatory business
event and one expert-topic mention. -/
def exArtC6 : Article :=
  { id := none, title := none, crawled := none
    canonicalUrl := none, alternate := []
    fullContent := none, content := none, summary := none
    businessEvents := [{ id := some "nlp/f/businessEvent/regulatory-changes" }]
    commonTopics := [{ id := some "nlp/f/topic/6001" }] }

/-- A 40-character sheet name with no illegal character. -/
def exLegalName : String := "0123456789012345678901234567890123456789"

/-- A trend with aliases, as in the spec's end-to-end scenario. -/
def exTrend : Trend := { label := some "X", aliases := ["foo", "bar"] }

/-- A second trend with an alias. -/
def exTrend2 : Trend := { label := none, aliases := ["baz"] }

/-- A trend with no aliases and a whitespace-only label: skipped. -/
def exSkipTrend : Trend := { label := some "  ", aliases := [] }

/-- A search stub returning one article for any alias list. -/
def exSearch : List String → List Article := fun _ => [exArtC6]

/-! ### Theorems -/

/-- Claim C5: URL extraction returns a present non-empty `canonicalUrl`
exactly (ignoring `alternate`); otherwise the `href` of the first
`alternate` entry when that list is non-empty; otherwise the empty
string. -/
theorem claim_c5 :
    (∀ (a : Article) (u : String),
      a.canonicalUrl = some u → u ≠ "" → extract_url a = u) ∧
    (∀ (a : Article) (alt : Alternate) (rest : List Alternate) (u : String),
      a.canonicalUrl = none ∨ a.canonicalUrl = some "" →
      a.alternate = alt :: rest → alt.href = some u → extract_url a = u) ∧
    (∀ a : Article,
      a.canonicalUrl = none ∨ a.canonicalUrl = some "" →
      a.alternate = [] → extract_url a = "") := by
  refine ⟨?_, ?_, ?_⟩
  · intro a u hca hu
    simp [extract_url, truthyS, hca, hu]
  · intro a alt rest u hca halt hhref
    rcases hca with h | h <;> simp [extract_url, truthyS, h, halt, hhref]
  · intro a hca halt
    rcases hca with h | h <;> simp [extract_url, truthyS, h, halt]

/-- Claim C5 witness: the three branches at concrete articles. -/
theorem claim_c5_witness :
    extract_url exArtCanon = "https://canon.example" ∧
    extract_url exArtAlt = "https://alt.example" ∧
    extract_url exArtBare = "" :=
  ⟨claim_c5.1 exArtCanon "https://canon.example" rfl (by decide),
   claim_c5.2.1 exArtAlt { href := some "https://alt.example" }
     [{ href := some "https://later.example" }] "https://alt.example"
     (Or.inl rfl) rfl rfl,
   claim_c5.2.2 exArtBare (Or.inl rfl) rfl⟩

/-- Claim C10: when `canonicalUrl` is absent or empty and the first
`alternate` entry has no `href`, URL extraction returns the empty string
(it neither raises nor consults later entries — `rest` is arbitrary). -/
theorem claim_c10 (a : Article) (rest : List Alternate)
    (hca : a.canonicalUrl = none ∨ a.canonicalUrl = some "")
    (halt : a.alternate = { href := none } :: rest) :
    extract_url a = "" := by
  rcases hca with h | h <;> simp [extract_url, truthyS, h, halt]

/-- Claim C10 witness: the later alternate's present `href` is ignored. -/
theorem claim_c10_witness : extract_url exArtNoHref = "" :=
  claim_c10 exArtNoHref [{ href := some "https://later.example" }]
    (Or.inr rfl) rfl

/-- Claim C7: the `crawled` value is read as epoch milliseconds UTC and
formatted `YYYY-MM-DD HH:MM:SS` — epoch `0` formats to
`1970-01-01 00:00:00` — and a missing (`None`), non-numeric, or
otherwise unconvertible value yields the empty string; the function is
total, so it never raises. -/
theorem claim_c7 :
    get_human_date (PyVal.vInt 0) = "1970-01-01 00:00:00" ∧
    (∀ s : String, pyParseInt s = none → get_human_date (PyVal.vStr s) = "") ∧
    get_human_date PyVal.vNone = "" := by
  refine ⟨by decide, ?_, rfl⟩
  intro s hs
  simp [get_human_date, hs]

/-- Claim C7 witness: a non-numeric string formats to the empty string. -/
theorem claim_c7_witness : get_human_date (PyVal.vStr "not-a-number") = "" :=
  claim_c7.2.1 "not-a-number" (by decide)

/-- Claim C9: sheet-name sanitization removes every occurrence of
`[ ] : * ? / \` and truncates to the first 31 characters: `"A/B:C*D?"`
becomes `"ABCD"`, and a 40-character name free of illegal characters
keeps exactly its first 31 characters. -/
theorem claim_c9 :
    sanitize_sheet_name "A/B:C*D?" = "ABCD" ∧
    (∀ name : String, name.data.length = 40 →
      (∀ c ∈ name.data, illegalSheetChar c = false) →
      (sanitize_sheet_name name).data = name.data.take 31 ∧
      (sanitize_sheet_name name).data.length = 31) := by
  constructor
  · decide
  · intro name hlen hleg
    have hfilter : name.data.filter (fun c => !illegalSheetChar c) = name.data := by
      apply List.filter_eq_self.mpr
      intro c hc
      simp [hleg c hc]
    constructor
    · simp [sanitize_sheet_name, hfilter]
    · simp [sanitize_sheet_name, hfilter, List.length_take, hlen]

/-- Claim C9 witness: the 40-character legal name truncates to 31. -/
theorem claim_c9_witness :
    (sanitize_sheet_name exLegalName).data = exLegalName.data.take 31 ∧
    (sanitize_sheet_name exLegalName).data.length = 31 :=
  claim_c9.2 exLegalName (by decide) (by decide)

theorem scanGt_mem {l l' : List Char} (h : scanGt l = some l') :
    ∀ a ∈ l', a ∈ l := by
  induction l with
  | nil => simp [scanGt] at h
  | cons c rest ih =>
    simp only [scanGt] at h
    split at h
    · cases h; intro a ha; exact List.mem_cons_of_mem _ ha
    · intro a ha; exact List.mem_cons_of_mem _ (ih h a ha)

theorem matchBody_mem {l l' : List Char} (h : matchBody l = some l') :
    ∀ a ∈ l', a ∈ l := by
  cases l with
  | nil => simp [matchBody] at h
  | cons c rest =>
    simp only [matchBody] at h
    split at h
    · cases h
    · intro a ha; exact List.mem_cons_of_mem _ (scanGt_mem h a ha)

theorem matchAfterLt_mem {l l' : List Char} (h : matchAfterLt l = some l') :
    ∀ a ∈ l', a ∈ l := by
  cases l with
  | nil => simp [matchAfterLt] at h
  | cons c rest =>
    simp only [matchAfterLt] at h
    split at h
    · rcases ho : matchBody rest with _ | v
      · rw [ho] at h
        simp only [Option.orElse] at h
        exact matchBody_mem h
      · rw [ho] at h
        simp only [Option.orElse] at h
        cases h
        intro a ha
        exact List.mem_cons_of_mem _ (matchBody_mem ho a ha)
    · exact matchBody_mem h

theorem scanGt_isSome {l : List Char} : (scanGt l).isSome = true ↔ '>' ∈ l := by
  induction l with
  | nil => simp [scanGt]
  | cons c rest ih =>
    simp only [scanGt]
    split
    · rename_i hc; subst hc; simp
    · rename_i hc
      simp only [List.mem_cons, ih]
      constructor
      · exact Or.inr
      · rintro (h | h)
        · exact absurd h.symm hc
        · exact h

theorem matchBody_isSome {l : List Char} :
    (matchBody l).isSome = true ↔ ∃ c t, l = c :: t ∧ c ≠ '>' ∧ '>' ∈ t := by
  cases l with
  | nil => simp [matchBody]
  | cons c rest =>
    simp only [matchBody]
    split
    · rename_i hc; subst hc; simp
    · rename_i hc
      simp only [scanGt_isSome]
      constructor
      · intro h; exact ⟨c, rest, rfl, hc, h⟩
      · rintro ⟨c', t', he, _, hm⟩
        cases he; exact hm

theorem matchAfterLt_isSome {l : List Char} :
    (matchAfterLt l).isSome = true ↔ ∃ c t, l = c :: t ∧ c ≠ '>' ∧ '>' ∈ t := by
  cases l with
  | nil => simp [matchAfterLt]
  | cons c rest =>
    simp only [matchAfterLt]
    split
    · rename_i hc; subst hc
      rcases ho : matchBody rest with _ | v
      · simp only [Option.orElse, matchBody_isSome]
      · simp only [Option.orElse, Option.isSome_some, true_iff]
        have := matchBody_isSome (l := rest)
        rw [ho] at this
        obtain ⟨c', t', he, hne, hm⟩ := this.mp rfl
        exact ⟨'/', rest, rfl, by decide, by rw [he]; exact List.mem_cons_of_mem _ hm⟩
    · exact matchBody_isSome

theorem subTags_nil : subTags [] = [] := by rw [subTags]

theorem subTags_lt_some {rest rest' : List Char}
    (h : matchAfterLt rest = some rest') :
    subTags ('<' :: rest) = ' ' :: subTags rest' := by
  rw [subTags]
  rw [if_pos rfl]
  split
  · rename_i x hx
    rw [h] at hx
    cases hx
    rfl
  · rename_i hx
    rw [h] at hx
    cases hx

theorem subTags_lt_none {rest : List Char} (h : matchAfterLt rest = none) :
    subTags ('<' :: rest) = '<' :: subTags rest := by
  rw [subTags]
  rw [if_pos rfl]
  split
  · rename_i x hx
    rw [h] at hx
    cases hx
  · rfl

theorem subTags_cons {c : Char} {rest : List Char} (h : ¬ c = '<') :
    subTags (c :: rest) = c :: subTags rest := by
  rw [subTags]
  rw [if_neg h]

theorem mem_subTags {l : List Char} : ∀ a ∈ subTags l, a = ' ' ∨ a ∈ l := by
  induction l using subTags.induct with
  | case1 => simp [subTags_nil]
  | case2 rest rest' hm ih =>
    rw [subTags_lt_some hm]
    intro a ha
    rcases List.mem_cons.mp ha with h | h
    · exact Or.inl h
    · rcases ih a h with h' | h'
      · exact Or.inl h'
      · exact Or.inr (List.mem_cons_of_mem _ (matchAfterLt_mem hm a h'))
  | case3 rest hm ih =>
    rw [subTags_lt_none hm]
    intro a ha
    rcases List.mem_cons.mp ha with h | h
    · exact Or.inr (h ▸ List.mem_cons_self _ _)
    · rcases ih a h with h' | h'
      · exact Or.inl h'
      · exact Or.inr (List.mem_cons_of_mem _ h')
  | case4 c rest hc ih =>
    rw [subTags_cons hc]
    intro a ha
    rcases List.mem_cons.mp ha with h | h
    · exact Or.inr (h ▸ List.mem_cons_self _ _)
    · rcases ih a h with h' | h'
      · exact Or.inl h'
      · exact Or.inr (List.mem_cons_of_mem _ h')

theorem okLt_matchAfterLt {rest : List Char} (h : okLt rest = true) :
    matchAfterLt rest = none := by
  rw [← Option.not_isSome_iff_eq_none]
  intro hs
  obtain ⟨c, t, he, hne, hm⟩ := matchAfterLt_isSome.mp hs
  subst he
  rcases Bool.or_eq_true_iff.mp h with h' | h'
  · have : c = '>' := by
      have := (beq_iff_eq).mp h'
      simpa using this
    exact hne this
  · have : ¬ (c :: t).contains '>' := by simpa using h'
    exact this (by simp [List.contains, List.mem_cons.mpr (Or.inr hm)])

theorem hasTag_eq_false_of_strongInv :
    ∀ {l : List Char}, strongInv l = true → hasTag l = false := by
  intro l
  induction l with
  | nil => intro _; rfl
  | cons c rest ih =>
    intro h
    rw [strongInv] at h
    obtain ⟨h1, h2⟩ := Bool.and_eq_true_iff.mp h
    rw [hasTag, Bool.or_eq_false_iff]
    refine ⟨?_, ih h2⟩
    rcases Bool.or_eq_true_iff.mp h1 with h' | h'
    · simp [bne_iff_ne.mp h']
    · rw [okLt_matchAfterLt h']
      simp

theorem matchAfterLt_none_cases {c : Char} {t : List Char}
    (h : matchAfterLt (c :: t) = none) : c = '>' ∨ '>' ∉ t := by
  by_contra hcon
  push_neg at hcon
  have hs : (matchAfterLt (c :: t)).isSome = true :=
    matchAfterLt_isSome.mpr ⟨c, t, rfl, hcon.1, hcon.2⟩
  rw [h] at hs
  exact Bool.noConfusion hs

theorem notGt_subTags {l : List Char} (h : '>' ∉ l) : '>' ∉ subTags l := by
  intro hmem
  rcases mem_subTags '>' hmem with h' | h'
  · exact absurd h'.symm (by decide)
  · exact h h'

theorem strongInv_subTags : ∀ l : List Char, strongInv (subTags l) = true := by
  intro l
  induction l using subTags.induct with
  | case1 => rw [subTags_nil]; rfl
  | case2 rest rest' hm ih =>
    rw [subTags_lt_some hm, strongInv, ih]
    simp
  | case3 rest hm ih =>
    rw [subTags_lt_none hm, strongInv, ih]
    rw [Bool.and_true, Bool.or_eq_true_iff]
    right
    rcases rest with _ | ⟨d, t⟩
    · rw [subTags_nil]; rfl
    · rcases matchAfterLt_none_cases hm with h' | h'
      · subst h'
        rw [subTags_cons (by decide)]
        simp [okLt]
      · by_cases hd : d = '>'
        · subst hd
          rw [subTags_cons (by decide)]
          simp [okLt]
        · have hnot : '>' ∉ d :: t := by
            intro hx
            rcases List.mem_cons.mp hx with hx | hx
            · exact hd hx.symm
            · exact h' hx
          have := notGt_subTags hnot
          simp only [okLt, Bool.or_eq_true_iff]
          right
          simpa using this
  | case4 c rest hc ih =>
    rw [subTags_cons hc, strongInv, ih]
    simp [bne_iff_ne.mpr hc]

theorem mem_collapseDouble {l : List Char} :
    ∀ a ∈ collapseDouble l, a ∈ l := by
  induction l using collapseDouble.induct with
  | case1 => simp [collapseDouble]
  | case2 c => simp [collapseDouble]
  | case3 c d rest hsp ih =>
    rw [collapseDouble, if_pos hsp]
    intro a ha
    rcases List.mem_cons.mp ha with h | h
    · rw [h, hsp.1]; exact List.mem_cons_self _ _
    · exact List.mem_cons_of_mem _ (List.mem_cons_of_mem _ (ih a h))
  | case4 c d rest hsp ih =>
    rw [collapseDouble, if_neg hsp]
    intro a ha
    rcases List.mem_cons.mp ha with h | h
    · exact h ▸ List.mem_cons_self _ _
    · exact List.mem_cons_of_mem _ (ih a h)

theorem strongInv_tail {c : Char} {rest : List Char}
    (h : strongInv (c :: rest) = true) : strongInv rest = true :=
  (Bool.and_eq_true_iff.mp (by rw [strongInv] at h; exact h)).2

theorem okLt_collapseDouble {l : List Char} (h : okLt l = true) :
    okLt (collapseDouble l) = true := by
  rcases Bool.or_eq_true_iff.mp h with h' | h'
  · rcases l with _ | ⟨d, t⟩
    · simp [okLt] at h'
    · have hd : d = '>' := by
        have := beq_iff_eq.mp h'
        simpa using this
      subst hd
      rcases t with _ | ⟨e, u⟩
      · rw [collapseDouble]; exact h
      · rw [collapseDouble, if_neg (by simp)]
        simp [okLt]
  · have hnot : '>' ∉ l := by simpa using h'
    have : '>' ∉ collapseDouble l := fun hx => hnot (mem_collapseDouble '>' hx)
    simp only [okLt, Bool.or_eq_true_iff]
    right
    simpa using this

theorem strongInv_collapseDouble {l : List Char} (h : strongInv l = true) :
    strongInv (collapseDouble l) = true := by
  induction l using collapseDouble.induct with
  | case1 => exact h
  | case2 c => rw [collapseDouble]; exact h
  | case3 c d rest hsp ih =>
    rw [collapseDouble, if_pos hsp, strongInv]
    have h2 : strongInv rest = true := strongInv_tail (strongInv_tail h)
    rw [ih h2]
    simp
  | case4 c d rest hsp ih =>
    rw [collapseDouble, if_neg hsp, strongInv]
    have h2 : strongInv (d :: rest) = true := strongInv_tail h
    rw [ih h2, Bool.and_true, Bool.or_eq_true_iff]
    rw [strongInv] at h
    rcases Bool.or_eq_true_iff.mp (Bool.and_eq_true_iff.mp h).1 with h' | h'
    · exact Or.inl h'
    · exact Or.inr (okLt_collapseDouble h')

theorem strongInv_map {f : Char → Char}
    (hlt : ∀ c, f c = '<' ↔ c = '<') (hgt : ∀ c, f c = '>' ↔ c = '>') :
    ∀ {l : List Char}, strongInv l = true → strongInv (l.map f) = true := by
  intro l
  induction l with
  | nil => intro h; exact h
  | cons c rest ih =>
    intro h
    rw [strongInv] at h
    obtain ⟨h1, h2⟩ := Bool.and_eq_true_iff.mp h
    rw [List.map_cons, strongInv, ih h2, Bool.and_true, Bool.or_eq_true_iff]
    rcases Bool.or_eq_true_iff.mp h1 with h' | h'
    · left
      rw [bne_iff_ne]
      intro hx
      exact bne_iff_ne.mp h' ((hlt c).mp hx)
    · right
      rcases Bool.or_eq_true_iff.mp h' with h'' | h''
      · rcases rest with _ | ⟨d, t⟩
        · simp [okLt]
        · have hd : d = '>' := by
            have := beq_iff_eq.mp h''
            simpa using this
          subst hd
          simp only [okLt, List.map_cons, List.head?_cons, Bool.or_eq_true_iff]
          left
          rw [beq_iff_eq, (hgt '>').mpr rfl]
      · have hnot : '>' ∉ rest := by simpa using h''
        have : '>' ∉ rest.map f := by
          intro hx
          obtain ⟨b, hb, hfb⟩ := List.mem_map.mp hx
          exact hnot ((hgt b).mp hfb ▸ hb)
        simp only [okLt, Bool.or_eq_true_iff]
        right
        simpa using this

theorem strongInv_append_right {l₁ l₂ : List Char}
    (h : strongInv (l₁ ++ l₂) = true) : strongInv l₂ = true := by
  induction l₁ with
  | nil => exact h
  | cons c rest ih => exact ih (strongInv_tail h)

theorem okLt_of_append {l₁ l₂ : List Char} (h : okLt (l₁ ++ l₂) = true) :
    okLt l₁ = true := by
  rcases l₁ with _ | ⟨d, t⟩
  · simp [okLt]
  · rcases Bool.or_eq_true_iff.mp h with h' | h'
    · have hd : d = '>' := by
        have := beq_iff_eq.mp h'
        simpa using this
      subst hd
      simp [okLt]
    · have : '>' ∉ (d :: t) ++ l₂ := by simpa using h'
      have hnot : '>' ∉ d :: t := fun hx => this (List.mem_append_left _ hx)
      simp only [okLt, Bool.or_eq_true_iff]
      right
      simpa using hnot

theorem strongInv_append_left {l₁ l₂ : List Char}
    (h : strongInv (l₁ ++ l₂) = true) : strongInv l₁ = true := by
  induction l₁ with
  | nil => rfl
  | cons c rest ih =>
    rw [List.cons_append, strongInv] at h
    obtain ⟨h1, h2⟩ := Bool.and_eq_true_iff.mp h
    rw [strongInv, ih h2, Bool.and_true, Bool.or_eq_true_iff]
    rcases Bool.or_eq_true_iff.mp h1 with h' | h'
    · exact Or.inl h'
    · exact Or.inr (okLt_of_append h')

theorem strongInv_pyStripList {l : List Char} (h : strongInv l = true) :
    strongInv (pyStripList l) = true := by
  have h1 : strongInv (l.dropWhile isPySpace) = true := by
    have := List.takeWhile_append_dropWhile (p := isPySpace) (l := l)
    exact strongInv_append_right
      (show strongInv (l.takeWhile isPySpace ++ l.dropWhile isPySpace) = true by
        rw [this]; exact h)
  set m := l.dropWhile isPySpace with hm
  have h2 : m.reverse = m.reverse.takeWhile isPySpace ++ m.reverse.dropWhile isPySpace :=
    (List.takeWhile_append_dropWhile (p := isPySpace) (l := m.reverse)).symm
  have h3 : m = (m.reverse.dropWhile isPySpace).reverse ++
      (m.reverse.takeWhile isPySpace).reverse := by
    have h4 := congrArg List.reverse h2
    rwa [List.reverse_reverse, List.reverse_append] at h4
  rw [pyStripList, ← hm]
  exact strongInv_append_left (by rw [← h3]; exact h1)

theorem strongInv_stripTagsList (l : List Char) :
    strongInv (stripTagsList l) = true := by
  rw [stripTagsList]
  split
  · rfl
  · refine strongInv_pyStripList (strongInv_collapseDouble ?_)
    refine strongInv_map (f := replCR) ?_ ?_ ?_
    · intro c; constructor
      · intro hx
        by_cases hc : c = '\r'
        · rw [replCR, if_pos hc] at hx; exact absurd hx (by decide)
        · rwa [replCR, if_neg hc] at hx
      · intro hx; subst hx; rfl
    · intro c; constructor
      · intro hx
        by_cases hc : c = '\r'
        · rw [replCR, if_pos hc] at hx; exact absurd hx (by decide)
        · rwa [replCR, if_neg hc] at hx
      · intro hx; subst hx; rfl
    · refine strongInv_map (f := replNL) ?_ ?_ (strongInv_subTags l)
      · intro c; constructor
        · intro hx
          by_cases hc : c = '\n'
          · rw [replNL, if_pos hc] at hx; exact absurd hx (by decide)
          · rwa [replNL, if_neg hc] at hx
        · intro hx; subst hx; rfl
      · intro c; constructor
        · intro hx
          by_cases hc : c = '\n'
          · rw [replNL, if_pos hc] at hx; exact absurd hx (by decide)
          · rwa [replNL, if_neg hc] at hx
        · intro hx; subst hx; rfl

/-- Claim C2: for every HTML input string, the output of `strip_tags`
(tag removal, newline/carriage-return replacement, the single double-space
collapse pass, and trimming) contains no substring matching the tag
pattern of `RE_STRIP` — an opening angle bracket, one or more characters
none of which is a closing bracket, then a closing angle bracket. -/
theorem claim_c2 (html_content : String) :
    hasTag (strip_tags html_content).data = false :=
  hasTag_eq_false_of_strongInv (strongInv_stripTagsList html_content.data)

theorem searchLoop_eq_spec {α : Type} :
    ∀ (responses : List (Option (Page α))) (acc : List α) (cont : Option String),
      searchLoop responses acc cont =
        ((searchSpec responses cont).1, acc ++ (searchSpec responses cont).2) := by
  intro responses
  induction responses with
  | nil => intro acc cont; simp [searchLoop, searchSpec]
  | cons resp rest ih =>
    intro acc cont
    cases resp with
    | none => simp [searchLoop, searchSpec]
    | some data =>
      simp only [searchLoop, searchSpec]
      split
      · simp
      · rw [ih]
        simp [List.append_assoc]

theorem searchLoop_chain_fail {α : Type} :
    ∀ (ps : List (Page α)) (prev : Option String) (acc : List α)
      (rest : List (Option (Page α))),
      chainOk prev ps = true →
      (searchLoop (ps.map some ++ none :: rest) acc prev).2 =
        acc ++ (ps.map Page.items).flatten := by
  intro ps
  induction ps with
  | nil =>
    intro prev acc rest _
    simp [searchLoop]
  | cons q qs ih =>
    intro prev acc rest hchain
    rw [chainOk] at hchain
    rcases hq : q.continuation with _ | t
    · rw [hq] at hchain; cases hchain
    · rw [hq] at hchain
      have h1 := Bool.and_eq_true_iff.mp hchain
      have hrest := h1.2
      have ht := (Bool.and_eq_true_iff.mp h1.1).1
      have hne := (Bool.and_eq_true_iff.mp h1.1).2
      simp only [List.map_cons, List.cons_append, searchLoop, hq]
      have hne' : (some t : Option String) ≠ prev := by simpa using hne
      have hcond : (!truthyTok (some t) || (some t : Option String) == prev) = false := by
        simp [truthyTok, ht, hne']
      rw [hcond]
      simp only [Bool.false_eq_true, if_false, List.append_eq]
      rw [ih (some t) (acc ++ q.items) rest hrest]
      simp [List.append_assoc]

theorem searchLoop_chain_stop {α : Type} :
    ∀ (ps : List (Page α)) (prev : Option String) (acc : List α) (p : Page α)
      (rest : List (Option (Page α))),
      chainOk prev ps = true →
      (!truthyTok p.continuation || p.continuation == lastContFrom prev ps) = true →
      (searchLoop (ps.map some ++ some p :: rest) acc prev).2 =
        acc ++ (ps.map Page.items).flatten ++ p.items := by
  intro ps
  induction ps with
  | nil =>
    intro prev acc p rest _ hstop
    rw [lastContFrom] at hstop
    simp only [List.map_nil, List.nil_append, searchLoop]
    rw [hstop]
    simp
  | cons q qs ih =>
    intro prev acc p rest hchain hstop
    rw [chainOk] at hchain
    rcases hq : q.continuation with _ | t
    · rw [hq] at hchain; cases hchain
    · rw [hq] at hchain
      have h1 := Bool.and_eq_true_iff.mp hchain
      have hrest := h1.2
      have ht := (Bool.and_eq_true_iff.mp h1.1).1
      have hne := (Bool.and_eq_true_iff.mp h1.1).2
      simp only [List.map_cons, List.cons_append, searchLoop, hq]
      have hne' : (some t : Option String) ≠ prev := by simpa using hne
      have hcond : (!truthyTok (some t) || (some t : Option String) == prev) = false := by
        simp [truthyTok, ht, hne']
      rw [hcond]
      simp only [Bool.false_eq_true, if_false, List.append_eq]
      have hlast : lastContFrom prev (q :: qs) = lastContFrom (some t) qs := by
        rw [lastContFrom, hq]
      rw [hlast] at hstop
      rw [ih (some t) (acc ++ q.items) p rest hrest hstop]
      simp [List.append_assoc]

/-- Claim C3: the pagination loop of `search_articles` is exactly the
spec's algorithm (`searchSpec`): every follow-up request carries the
previous page's continuation token, the loop stops exactly when a page
omits a token or repeats the previous one (stall detection, not an
error), and the result concatenates the page items in arrival order.
The second part spells the concatenation out: on a chain of fresh-token
pages followed by a stopping page, the items are the flattened page
items including the stopping page, and later responses are never
consumed. -/
theorem claim_c3 (α : Type) :
    (∀ responses : List (Option (Page α)),
      search_articles responses = searchSpec responses none) ∧
    (∀ (ps : List (Page α)) (p : Page α) (rest : List (Option (Page α))),
      chainOk none ps = true →
      (!truthyTok p.continuation || p.continuation == lastContFrom none ps) = true →
      (search_articles (ps.map some ++ some p :: rest)).2 =
        (ps.map Page.items).flatten ++ p.items) := by
  constructor
  · intro responses
    rw [search_articles, searchLoop_eq_spec]
    simp
  · intro ps p rest h1 h2
    rw [search_articles, searchLoop_chain_stop ps none [] p rest h1 h2]
    simp

/-- Claim C3 witness: a two-page run — page one carries token `"a"`,
page two omits the token — returns the two pages' items concatenated. -/
theorem claim_c3_witness :
    (search_articles (([⟨[1], some "a"⟩] : List (Page Nat)).map some ++
        some ⟨[2], none⟩ :: [])).2 =
      (([⟨[1], some "a"⟩] : List (Page Nat)).map Page.items).flatten ++ [2] :=
  (claim_c3 Nat).2 [⟨[1], some "a"⟩] ⟨[2], none⟩ [] (by decide) (by decide)

/-- Claim C4: if the loop reaches a failing page request, the search
does not raise; it stops paginating and returns exactly the items
accumulated from the pages received before the failure (empty when the
first page fails). -/
theorem claim_c4 (α : Type) (ps : List (Page α))
    (rest : List (Option (Page α))) (h : chainOk none ps = true) :
    (search_articles (ps.map some ++ none :: rest)).2 =
      (ps.map Page.items).flatten := by
  rw [search_articles, searchLoop_chain_fail ps none [] rest h]
  simp

/-- Claim C4 witness: one good page then a failing request returns only
the first page's items; later responses are never consumed. -/
theorem claim_c4_witness :
    (search_articles (([⟨[5, 6], some "t"⟩] : List (Page Nat)).map some ++
        none :: [some ⟨[7], none⟩])).2 =
      (([⟨[5, 6], some "t"⟩] : List (Page Nat)).map Page.items).flatten :=
  claim_c4 Nat [⟨[5, 6], some "t"⟩] [some ⟨[7], none⟩] (by decide)

theorem idIn_reg_iff (o : Option String) : idIn o regulatory_ids = true ↔
    (o = some "nlp/f/businessEvent/regulatory-changes" ∨
     o = some "nlp/f/businessEvent/regulatory-approvals") := by
  rcases o with _ | s
  · simp [idIn]
  · simp [idIn, regulatory_ids]

theorem mem_typesOf_reg (a : Article) :
    ("Regulatory" ∈ typesOf a regulatory_ids expert_id conference_id) ↔
      ∃ be ∈ a.businessEvents,
        be.id = some "nlp/f/businessEvent/regulatory-changes" ∨
        be.id = some "nlp/f/businessEvent/regulatory-approvals" := by
  simp only [typesOf, List.mem_append, List.mem_flatMap]
  constructor
  · rintro (⟨be, hbe, hmem⟩ | ⟨tp, htp, hmem⟩)
    · refine ⟨be, hbe, ?_⟩
      rcases hmem with h' | h'
      · split at h'
        · rename_i hc
          exact (idIn_reg_iff be.id).mp hc
        · simp at h'
      · split at h' <;> simp_all
    · split at hmem <;> simp_all
  · rintro ⟨be, hbe, hdisj⟩
    left
    refine ⟨be, hbe, Or.inl ?_⟩
    rw [if_pos ((idIn_reg_iff be.id).mpr hdisj)]
    simp

theorem mem_typesOf_conf (a : Article) :
    ("Conferences" ∈ typesOf a regulatory_ids expert_id conference_id) ↔
      ∃ be ∈ a.businessEvents, be.id = some conference_id := by
  simp only [typesOf, List.mem_append, List.mem_flatMap]
  constructor
  · rintro (⟨be, hbe, hmem⟩ | ⟨tp, htp, hmem⟩)
    · refine ⟨be, hbe, ?_⟩
      rcases hmem with h' | h'
      · split at h' <;> simp_all
      · split at h'
        · rename_i hc
          simpa using hc
        · simp at h'
    · split at hmem <;> simp_all
  · rintro ⟨be, hbe, hid⟩
    left
    refine ⟨be, hbe, Or.inr ?_⟩
    rw [if_pos (by simpa using hid)]
    simp

theorem mem_typesOf_exp (a : Article) :
    ("Expert Mentions" ∈ typesOf a regulatory_ids expert_id conference_id) ↔
      ∃ tp ∈ a.commonTopics, tp.id = some expert_id := by
  simp only [typesOf, List.mem_append, List.mem_flatMap]
  constructor
  · rintro (⟨be, hbe, hmem⟩ | ⟨tp, htp, hmem⟩)
    · rcases hmem with h' | h'
      · split at h' <;> simp_all
      · split at h' <;> simp_all
    · refine ⟨tp, htp, ?_⟩
      split at hmem
      · rename_i hc
        simpa using hc
      · simp at hmem
  · rintro ⟨tp, htp, hid⟩
    right
    refine ⟨tp, htp, ?_⟩
    rw [if_pos (by simpa using hid)]
    simp

theorem typesOf_cases (a : Article) :
    ∀ x ∈ typesOf a regulatory_ids expert_id conference_id,
      x = "Regulatory" ∨ x = "Conferences" ∨ x = "Expert Mentions" := by
  intro x hx
  simp only [typesOf, List.mem_append, List.mem_flatMap] at hx
  rcases hx with ⟨be, _, hmem⟩ | ⟨tp, _, hmem⟩
  · rcases hmem with h' | h'
    · split at h' <;> simp_all
    · split at h' <;> simp_all
  · split at hmem <;> simp_all

theorem flatMap_nil_of {β γ : Type} (l : List β) (f : β → List γ)
    (h : ∀ x ∈ l, f x = []) : l.flatMap f = [] := by
  induction l with
  | nil => rfl
  | cons x xs ih =>
    rw [List.flatMap_cons, h x (List.mem_cons_self _ _),
      ih (fun y hy => h y (List.mem_cons_of_mem _ hy))]
    rfl

/-- Claim C6: type classification joins the set (duplicates removed) of
the categories contributed by exact id equality against the fixed
identifiers.  Concretely, the spec's test article (one
`regulatory-changes` business event, one `topic/6001` common topic)
produces a string containing `Regulatory` and `Expert Mentions` exactly
once each; an article matching nothing yields the empty string; and in
general the result is the `", "`-join of a duplicate-free list of
categories whose membership is exactly the contribution conditions. -/
theorem claim_c6 :
    (countSub (extract_type exArtC6 regulatory_ids expert_id conference_id).data
        "Regulatory".data = 1 ∧
     countSub (extract_type exArtC6 regulatory_ids expert_id conference_id).data
        "Expert Mentions".data = 1) ∧
    (∀ a : Article,
      (∀ be ∈ a.businessEvents,
        be.id ≠ some "nlp/f/businessEvent/regulatory-changes" ∧
        be.id ≠ some "nlp/f/businessEvent/regulatory-approvals" ∧
        be.id ≠ some conference_id) →
      (∀ tp ∈ a.commonTopics, tp.id ≠ some expert_id) →
      extract_type a regulatory_ids expert_id conference_id = "") ∧
    (∀ a : Article, ∃ cats : List String,
      cats.Nodup ∧
      (∀ c ∈ cats, c = "Regulatory" ∨ c = "Conferences" ∨ c = "Expert Mentions") ∧
      extract_type a regulatory_ids expert_id conference_id =
        (if cats.isEmpty then "" else String.intercalate ", " cats) ∧
      (("Regulatory" ∈ cats) ↔ ∃ be ∈ a.businessEvents,
        be.id = some "nlp/f/businessEvent/regulatory-changes" ∨
        be.id = some "nlp/f/businessEvent/regulatory-approvals") ∧
      (("Conferences" ∈ cats) ↔ ∃ be ∈ a.businessEvents,
        be.id = some conference_id) ∧
      (("Expert Mentions" ∈ cats) ↔ ∃ tp ∈ a.commonTopics,
        tp.id = some expert_id)) := by
  refine ⟨⟨by decide, by decide⟩, ?_, ?_⟩
  · intro a hbes htops
    have htypes : typesOf a regulatory_ids expert_id conference_id = [] := by
      rw [typesOf]
      rw [List.append_eq_nil]
      constructor
      · apply flatMap_nil_of
        intro be hbe
        obtain ⟨hn1, hn2, hn3⟩ := hbes be hbe
        have hreg : ¬ idIn be.id regulatory_ids = true := by
          rw [idIn_reg_iff]
          rintro (h | h)
          · exact hn1 h
          · exact hn2 h
        rw [if_neg hreg, if_neg (by simpa using hn3)]
        rfl
      · apply flatMap_nil_of
        intro tp htp
        rw [if_neg (by simpa using htops tp htp)]
    simp [extract_type, htypes]
  · intro a
    refine ⟨(typesOf a regulatory_ids expert_id conference_id).dedup,
      List.nodup_dedup _, ?_, ?_, ?_, ?_, ?_⟩
    · intro c hc
      exact typesOf_cases a c (List.mem_dedup.mp hc)
    · by_cases he : typesOf a regulatory_ids expert_id conference_id = []
      · simp [extract_type, he]
      · have hd : (typesOf a regulatory_ids expert_id conference_id).dedup ≠ [] := by
          simpa [List.dedup_eq_nil] using he
        simp [extract_type, he, hd]
    · exact List.mem_dedup.trans (mem_typesOf_reg a)
    · exact List.mem_dedup.trans (mem_typesOf_conf a)
    · exact List.mem_dedup.trans (mem_typesOf_exp a)

/-- Claim C6 witness: an article matching no identifier classifies to
the empty string. -/
theorem claim_c6_witness :
    extract_type exArtNoMatch regulatory_ids expert_id conference_id = "" :=
  claim_c6.2.1 exArtNoMatch (by decide) (by decide)

theorem processTrends_eq (search : List String → List Article) (ts : List Trend) :
    processTrends search ts =
      ((ts.filter (keepTrend search)).map fun t =>
          mkSummary (String.intercalate ", " (resolveAliases t))
            (search (resolveAliases t)),
       (ts.filter (keepTrend search)).map fun t =>
          (sanitize_sheet_name ((resolveAliases t).headD ""),
           (search (resolveAliases t)).map classifyRow)) := by
  induction ts with
  | nil => rfl
  | cons t ts ih =>
    rw [processTrends]
    rcases hres : resolveAliases t with _ | ⟨a0, rest⟩
    · have hk : keepTrend search t = false := by simp [keepTrend, hres]
      rw [List.filter_cons_of_neg (by simp [hk])]
      exact ih
    · dsimp only
      by_cases hemp : (search (a0 :: rest)).isEmpty = true
      · have hk : keepTrend search t = false := by simp [keepTrend, hres, hemp]
        rw [if_pos hemp, List.filter_cons_of_neg (by simp [hk])]
        exact ih
      · have hk : keepTrend search t = true := by simp [keepTrend, hres, hemp]
        rw [if_neg hemp, List.filter_cons_of_pos (by simp [hk]),
          List.map_cons, List.map_cons, ih]
        simp [hres]

/-- Claim C1: the trend detail tables and summary rows are built in
lockstep; for every index of the report, the detail table is exactly the
image under row classification of the article list the search returned
for that trend's resolved aliases (one row per article, in order), and
the matching summary row's `totalArticles` equals both that article
count and the detail-table length. -/
theorem claim_c1 (search : List String → List Article) (trends : List Trend) :
    (processTrends search trends).1.length = (processTrends search trends).2.length ∧
    (∀ k : Nat, k < (processTrends search trends).2.length →
      ∃ t s d, t ∈ trends ∧
        (processTrends search trends).1[k]? = some s ∧
        (processTrends search trends).2[k]? = some d ∧
        d.2 = (search (resolveAliases t)).map classifyRow ∧
        s.totalArticles = (search (resolveAliases t)).length ∧
        s.totalArticles = d.2.length) := by
  rw [processTrends_eq]
  constructor
  · simp
  · intro k hk
    simp only [List.length_map] at hk
    set t0 := (trends.filter (keepTrend search)).get ⟨k, hk⟩ with ht0
    refine ⟨t0,
      mkSummary (String.intercalate ", " (resolveAliases t0))
        (search (resolveAliases t0)),
      (sanitize_sheet_name ((resolveAliases t0).headD ""),
        (search (resolveAliases t0)).map classifyRow),
      List.mem_of_mem_filter (List.get_mem _ _ _), ?_, ?_, rfl, rfl, ?_⟩
    · rw [List.getElem?_map, List.getElem?_eq_getElem hk]
      rfl
    · rw [List.getElem?_map, List.getElem?_eq_getElem hk]
      rfl
    · simp [mkSummary]

/-- Claim C1 witness: one trend, one article, index 0. -/
theorem claim_c1_witness :
    ∃ t s d, t ∈ [exTrend] ∧
      (processTrends exSearch [exTrend]).1[0]? = some s ∧
      (processTrends exSearch [exTrend]).2[0]? = some d ∧
      d.2 = (exSearch (resolveAliases t)).map classifyRow ∧
      s.totalArticles = (exSearch (resolveAliases t)).length ∧
      s.totalArticles = d.2.length :=
  (claim_c1 exSearch [exTrend]).2 0 (by decide)

/-- Claim C8: a trend whose aliases are empty and whose stripped label
is empty is skipped entirely and without raising — the report is the
same as if the trend were absent, so it has no summary row and no detail
sheet, and the remaining trends are processed normally. -/
theorem claim_c8 (search : List String → List Article) (pre post : List Trend)
    (t : Trend) (h1 : t.aliases = [])
    (h2 : pyStripStr (t.label.getD "") = "") :
    processTrends search (pre ++ t :: post) = processTrends search (pre ++ post) := by
  have hres : resolveAliases t = [] := by
    rw [resolveAliases, if_neg (by simp [h1])]
    simp [h2]
  have hk : keepTrend search t = false := by simp [keepTrend, hres]
  rw [processTrends_eq, processTrends_eq, List.filter_append, List.filter_append,
    List.filter_cons_of_neg (by simp [hk])]

/-- Claim C8 witness: a whitespace-labelled alias-free trend between two
normal trends changes nothing. -/
theorem claim_c8_witness :
    processTrends exSearch ([exTrend] ++ exSkipTrend :: [exTrend2]) =
      processTrends exSearch ([exTrend] ++ [exTrend2]) :=
  claim_c8 exSearch [exTrend] [exTrend2] exSkipTrend rfl (by decide)

end ArticlesToXlsx
